import Mathlib

/-!
Verification of the resilience simulation engine of `tier_analysis.py`.

The Python source works on igraph directed graphs whose vertices carry a
stable `name` attribute; after any deletion igraph renumbers vertex indices
but names persist, and every set the engine returns is a set of names.  The
shallow embedding therefore works directly at the level of names: a graph is
a finite set of vertex names together with a finite set of directed edges
between names.  Fractions (`rho`, `breakdown_threshold`, `thinning_ratio`,
the random draws) are embedded as rationals.
-/

/-- A directed graph as used by the reachability analyzer: vertex names and
directed edges (source name, target name).  Mirrors an igraph graph whose
vertices are addressed by their `name` attribute. -/
structure SGraph where
  verts : Finset Nat
  edges : Finset (Nat × Nat)
  deriving DecidableEq

/-- One breadth-first expansion step along reversed edges: from a set `S` add
the sources of all edges whose target lies in `S`.  This is the elementary
step of `G.bfs(node, mode='IN')` in `get_reachable_nodes`. -/
def stepIn (E : Finset (Nat × Nat)) (S : Finset Nat) : Finset Nat :=
  S ∪ (E.filter (fun e => e.2 ∈ S)).image (fun e => e.1)

/-- `get_reachable_nodes(node, G)`: the names of all nodes from which `node`
can be reached along edge direction, i.e. the fixed point of the reverse
breadth-first search started at `node` (`mode='IN'`, start node included).
Iterating the one-step expansion `G.verts.card` times reaches the fixed
point, since a shortest reverse path visits each vertex at most once. -/
def get_reachable_nodes (node : Nat) (G : SGraph) : Finset Nat :=
  (stepIn G.edges)^[G.verts.card] {node}

/-- `G.induced_subgraph(S)`: keep the vertices of `S` and the edges with both
endpoints in `S`. -/
def induced_subgraph (G : SGraph) (S : Finset Nat) : SGraph :=
  { verts := G.verts ∩ S
    edges := G.edges.filter (fun e => e.1 ∈ S ∧ e.2 ∈ S) }

/-- One expansion step ignoring edge direction, used for weakly connected
components: add both neighbours of any edge touching `S`. -/
def stepAdj (E : Finset (Nat × Nat)) (S : Finset Nat) : Finset Nat :=
  S ∪ (E.filter (fun e => e.1 ∈ S)).image (fun e => e.2)
    ∪ (E.filter (fun e => e.2 ∈ S)).image (fun e => e.1)

/-- The weakly connected component of `v` in `G`: everything reachable from
`v` when edge direction is ignored.  `Graph.connected_components()` in
python-igraph partitions the graph into exactly these classes when called
without arguments, because its default mode is weak connectivity. -/
def weakComp (G : SGraph) (v : Nat) : Finset Nat :=
  (stepAdj G.edges)^[G.verts.card] {v} ∩ G.verts

/-- One expansion step along edge direction (forward reachability). -/
def stepOut (E : Finset (Nat × Nat)) (S : Finset Nat) : Finset Nat :=
  S ∪ (E.filter (fun e => e.1 ∈ S)).image (fun e => e.2)

/-- Forward reachability set of `v` in `G` (everything `v` can reach along
edge direction). -/
def reachOut (G : SGraph) (v : Nat) : Finset Nat :=
  (stepOut G.edges)^[G.verts.card] {v}

/-- The strongly connected component of `v` in `G`: the vertices that `v`
reaches and that reach `v` back. -/
def strongComp (G : SGraph) (v : Nat) : Finset Nat :=
  (reachOut G v).filter (fun u => v ∈ reachOut G u) ∩ G.verts

/-- The components (vertex classes) of `H` that have zero in-degree in the
condensation graph: no edge of `H` enters the class from outside it.  This is
`sccs.cluster_graph().vs(_indegree_eq=0)` — `cluster_graph` merges each class
to one super-node and its `simplify()` drops the intra-class self-loops, so a
super-node has in-degree zero exactly when no inter-class edge points into
its class. -/
def zeroIndegreeComps (H : SGraph) (comps : Finset (Finset Nat)) :
    Finset (Finset Nat) :=
  comps.filter (fun C => ∀ e ∈ H.edges, e.2 ∈ C → e.1 ∈ C)

/-- `get_terminal_nodes(node, G)` as the source computes it: take the
upstream-reachable set, induce the subgraph on it, partition it with
`connected_components()` — whose python-igraph default mode is WEAK — and
return the union of the classes whose condensation super-node has zero
in-degree. -/
def get_terminal_nodes (node : Nat) (G : SGraph) : Finset Nat :=
  let reachable_nodes := get_reachable_nodes node G
  let reachable_graph := induced_subgraph G reachable_nodes
  let sccs := reachable_graph.verts.image (fun v => weakComp reachable_graph v)
  (zeroIndegreeComps reachable_graph sccs).biUnion (fun C => C)

/-- The terminal-node set exactly as the specification words it (for
comparison with the source's `get_terminal_nodes`): partition the induced
reachable subgraph into STRONGLY connected components, build the condensation
and return the union of the components with zero in-degree there. -/
def terminal_nodes_spec (node : Nat) (G : SGraph) : Finset Nat :=
  let reachable_nodes := get_reachable_nodes node G
  let reachable_graph := induced_subgraph G reachable_nodes
  let sccs := reachable_graph.verts.image (fun v => strongComp reachable_graph v)
  (zeroIndegreeComps reachable_graph sccs).biUnion (fun C => C)

/-- `get_u(i_thick, G_thin)` (default arguments): look the node up by name in
the thinned graph; if it was deleted return the empty set, otherwise return
its upstream-reachable set in the thinned graph. -/
def get_u (i : Nat) (G_thin : SGraph) : Finset Nat :=
  if i ∈ G_thin.verts then get_reachable_nodes i G_thin else ∅

/-- `some_terminal_suppliers_reachable(i, G, G_thin, t, u)`: with `t`/`u`
defaulted from the graphs when absent, return whether `u ∩ t` is non-empty. -/
def some_terminal_suppliers_reachable (i : Nat) (G G_thin : SGraph)
    (t u : Option (Finset Nat)) : Bool :=
  let tv := t.getD (get_terminal_nodes i G)
  let uv := u.getD (get_u i G_thin)
  decide (uv ∩ tv).Nonempty

/-- `percent_terminal_suppliers_reachable(i, G, G_thin, t, u)`: with `t`/`u`
defaulted from the graphs when absent, return `|t ∩ u| / |t|`.  The Python
division raises `ZeroDivisionError` when `len(t) == 0`; the embedding returns
`none` exactly on that branch. -/
def percent_terminal_suppliers_reachable (i : Nat) (G G_thin : SGraph)
    (t u : Option (Finset Nat)) : Option ℚ :=
  let tv := t.getD (get_terminal_nodes i G)
  let uv := u.getD (get_u i G_thin)
  if tv.card = 0 then none
  else some (((tv ∩ uv).card : ℚ) / (tv.card : ℚ))

/-- Two-vertex graph with the single edge `1 → 0`: vertex `1` is the sole
further-upstream supplier of vertex `0`. -/
def Gbug : SGraph := { verts := {0, 1}, edges := {(1, 0)} }

/-- One isolated vertex `0`, no edges. -/
def G1 : SGraph := { verts := {0}, edges := (∅ : Finset (Nat × Nat)) }

/-- C1: the claim states that `get_terminal_nodes(n, G)` equals the union of
the zero-in-degree components of the STRONGLY-connected-component
condensation of the induced upstream-reachable subgraph.  The source instead
partitions with `connected_components()` whose igraph default mode is weak,
so no inter-component edge survives condensation and every upstream-reachable
node is returned.  On the graph with the single edge `1 → 0` and focal node
`0` the source yields `{0, 1}` while the claimed SCC condensation yields
`{1}`; in particular node `0`, which has a further upstream supplier, is
reported as terminal. -/
theorem C1_terminal_nodes_weak_components_bug :
    get_terminal_nodes 0 Gbug = {0, 1} ∧
    terminal_nodes_spec 0 Gbug = {1} ∧
    get_reachable_nodes 0 Gbug = {0, 1} ∧
    get_terminal_nodes 0 Gbug ≠ terminal_nodes_spec 0 Gbug := by decide

/-- When both optional arguments are supplied, the boolean metric reduces to
a function of `t` and `u` alone. -/
theorem some_terminal_eval (i : Nat) (G G_thin : SGraph) (t u : Finset Nat) :
    some_terminal_suppliers_reachable i G G_thin (some t) (some u)
      = decide (u ∩ t).Nonempty := by
  simp only [some_terminal_suppliers_reachable, Option.getD_some]

/-- When both optional arguments are supplied, the fractional metric reduces
to a function of `t` and `u` alone. -/
theorem percent_terminal_eval (i : Nat) (G G_thin : SGraph) (t u : Finset Nat) :
    percent_terminal_suppliers_reachable i G G_thin (some t) (some u)
      = if t.card = 0 then none
        else some (((t ∩ u).card : ℚ) / (t.card : ℚ)) := by
  simp only [percent_terminal_suppliers_reachable, Option.getD_some]

/-- C6: with `t` and `u` supplied, `percent_terminal_suppliers_reachable`
fails (raises the division error, embedded as `none`) exactly when
`|t| = 0`, and otherwise returns `|t ∩ u| / |t|`. -/
theorem C6_percent_terminal_division (i : Nat) (G G_thin : SGraph)
    (t u : Finset Nat) :
    (percent_terminal_suppliers_reachable i G G_thin (some t) (some u) = none
      ↔ t.card = 0) ∧
    (percent_terminal_suppliers_reachable i G G_thin (some t) (some u)
        = some (((t ∩ u).card : ℚ) / (t.card : ℚ))
      ↔ t.card ≠ 0) := by
  rw [percent_terminal_eval]
  by_cases h : t.card = 0 <;> simp [h]

/-- C10: when both `t` and `u` are supplied (not `None`), the two metric
callbacks read nothing but `t` and `u`: calls differing only in the node and
graph arguments return equal results.  This is why
`failure_reachability_single` may pass the whole `med_suppliers` list as the
node argument without affecting the computed metrics. -/
theorem C10_metrics_depend_only_on_t_u (i j : Nat) (G H G_thin H_thin : SGraph)
    (t u : Finset Nat) :
    some_terminal_suppliers_reachable i G G_thin (some t) (some u)
      = some_terminal_suppliers_reachable j H H_thin (some t) (some u) ∧
    percent_terminal_suppliers_reachable i G G_thin (some t) (some u)
      = percent_terminal_suppliers_reachable j H H_thin (some t) (some u) :=
  ⟨(some_terminal_eval i G G_thin t u).trans
      (some_terminal_eval j H H_thin t u).symm,
    (percent_terminal_eval i G G_thin t u).trans
      (percent_terminal_eval j H H_thin t u).symm⟩

/-- A directed graph carrying the `Tier` attributes: vertex names, the vertex
`Tier` attribute as an association list (vertices without the attribute are
absent), and edges `(source, target, tier)`. -/
structure TGraph where
  verts : List Nat
  vtier : List (Nat × Nat)
  edges : List (Nat × Nat × Nat)
  deriving DecidableEq

/-- First-occurrence deduplication scan, the behaviour of pandas
`Series.unique` used for `firm_list` and of igraph edge merging: `seen`
accumulates the values already emitted. -/
def uniqueKeepFirstAux {α : Type} [DecidableEq α] :
    List α → List α → List α
  | [], _ => []
  | x :: xs, seen =>
    if x ∈ seen then uniqueKeepFirstAux xs seen
    else x :: uniqueKeepFirstAux xs (x :: seen)

/-- The distinct values of a list in order of first occurrence. -/
def uniqueKeepFirst {α : Type} [DecidableEq α] (l : List α) : List α :=
  uniqueKeepFirstAux l []

/-- Minimum of a list of naturals (only ever applied to non-empty lists; the
nil case is an unused default). -/
def listMin : List Nat → Nat
  | [] => 0
  | x :: xs => xs.foldl Nat.min x

/-- The ordered (source, target) pair of an input record or edge. -/
def pairOf (r : Nat × Nat × Nat) : Nat × Nat := (r.1, r.2.1)

/-- The combined tier of the ordered pair `p` after
`simplify(combine_edges='min')`: the minimum input tier among all records
with that (source, target) pair. -/
def minTier (rows : List (Nat × Nat × Nat)) (p : Nat × Nat) : Nat :=
  listMin ((rows.filter (fun r => pairOf r = p)).map (fun r => r.2.2))

/-- `igraph_simple(edge_df)`: vertices are the unique values of the
concatenated Source and Target columns; one edge is added per input record
with its `Tier` value, and `G.simplify(loops=False, combine_edges='min')`
then merges the records sharing an ordered (source, target) pair, keeping
the minimum tier.  `loops=False` means self-loops are NOT removed.  Node
tiers are not assigned here (`get_node_tier_from_edge_tier` does that
later), so `vtier` is empty. -/
def igraph_simple (rows : List (Nat × Nat × Nat)) : TGraph :=
  { verts := uniqueKeepFirst (rows.map (fun r => r.1) ++ rows.map (fun r => r.2.1))
    vtier := []
    edges := (uniqueKeepFirst (rows.map pairOf)).map
      (fun p => (p.1, p.2, minTier rows p)) }

/-- The outgoing edges of vertex `v` (`node.out_edges()`). -/
def out_edges (G : TGraph) (v : Nat) : List (Nat × Nat × Nat) :=
  G.edges.filter (fun e => e.1 = v)

/-- The tier value the loop body of `get_node_tier_from_edge_tier` assigns to
`v`: the minimum tier of the edges leaving `v`, or `0` if there are none. -/
def nodeTierExpr (G : TGraph) (v : Nat) : Nat :=
  if (out_edges G v).length > 0
  then listMin ((out_edges G v).map (fun e => e.2.2))
  else 0

/-- `get_node_tier_from_edge_tier(G)`: iterate over the nodes and assign each
node the minimum tier of the edges leaving it (0 when it has none).  The
Python function mutates `G` in place; the embedding returns the post-state. -/
def get_node_tier_from_edge_tier (G : TGraph) : TGraph :=
  { G with vtier := G.verts.map (fun v => (v, nodeTierExpr G v)) }

/-- The `Tier` attribute of vertex `v` (vertices never queried before
assignment; `0` is an unused default for an absent attribute). -/
def tierOf (G : TGraph) (v : Nat) : Nat :=
  (List.lookup v G.vtier).getD 0

/-- The derived-tier invariant of the data model: every node's stored tier
equals the minimum tier of its outgoing edges, or 0 if it has none. -/
def tierInvariant (G : TGraph) : Bool :=
  G.verts.all (fun v => tierOf G v == nodeTierExpr G v)

/-- `reduce_tiers(G, tiers)`: on a deep copy, delete the edges with
`Tier >= tiers + 1`, then delete the vertices with `Tier >= tiers + 1`
(vertex deletion also removes their incident edges).  Node tiers are NOT
recomputed.  (The source additionally drops some unrelated cached vertex
attributes, none of which exist in this model.) -/
def reduce_tiers (G : TGraph) (tiers : Nat) : TGraph :=
  let edges1 := G.edges.filter (fun e => e.2.2 < tiers + 1)
  let verts1 := G.verts.filter (fun v => tierOf G v < tiers + 1)
  { verts := verts1
    vtier := G.vtier.filter (fun p => p.1 ∈ verts1)
    edges := edges1.filter (fun e => e.1 ∈ verts1 ∧ e.2.1 ∈ verts1) }

/-- `get_demand_nodes(G)`: the set of target vertices of the edges whose
`Tier` attribute equals 1 (`{x.target_vertex for x in G.es(Tier=1)}`). -/
def get_demand_nodes (G : TGraph) : Finset Nat :=
  ((G.edges.filter (fun e => e.2.2 = 1)).map (fun e => e.2.1)).toFinset

/-- The demand-node set exactly as the specification words it (for comparison
with the source's `get_demand_nodes`): all nodes whose tier equals 1. -/
def demand_nodes_spec (G : TGraph) : Finset Nat :=
  (G.verts.filter (fun v => tierOf G v = 1)).toFinset

/-- Two-vertex chain `0 → 1` with edge tier 1, node tiers derived: node 0 has
tier 1 (its only outgoing edge), node 1 has tier 0 (no outgoing edges). -/
def Gc2 : TGraph :=
  get_node_tier_from_edge_tier { verts := [0, 1], vtier := [], edges := [(0, 1, 1)] }

/-- Three-vertex chain `0 → 1 → 2` with edge tiers 1 and 2, node tiers
derived: node 0 gets tier 1, node 1 gets tier 2, node 2 gets tier 0. -/
def Gc4 : TGraph :=
  get_node_tier_from_edge_tier
    { verts := [0, 1, 2], vtier := [], edges := [(0, 1, 1), (1, 2, 2)] }

/-- Looking a list member up in the association list built by mapping each
element to a key-value pair finds its value. -/
theorem lookup_map_pair {l : List Nat} {f : Nat → Nat} {v : Nat} (hv : v ∈ l) :
    List.lookup v (l.map (fun x => (x, f x))) = some (f v) := by
  induction l with
  | nil => cases hv
  | cons x xs ih =>
    by_cases hx : v = x
    · subst hx
      simp [List.lookup]
    · rcases List.mem_cons.mp hv with h | h
      · exact absurd h hx
      · have hbeq : (v == x) = false := beq_eq_false_iff_ne.mpr hx
        simpa [List.lookup, hbeq] using ih h

/-- C4 (amended part): after the initial tier assignment
`get_node_tier_from_edge_tier`, every node's tier equals the minimum tier of
its outgoing edges, or 0 if it has none. -/
theorem C4_tier_invariant_amended (G : TGraph) :
    tierInvariant (get_node_tier_from_edge_tier G) = true := by
  rw [tierInvariant, List.all_eq_true]
  intro v hv
  have hv' : v ∈ G.verts := hv
  have h1 : tierOf (get_node_tier_from_edge_tier G) v = nodeTierExpr G v := by
    rw [tierOf, show (get_node_tier_from_edge_tier G).vtier
        = G.verts.map (fun x => (x, nodeTierExpr G x)) from rfl,
      lookup_map_pair hv']
    rfl
  show (tierOf (get_node_tier_from_edge_tier G) v
      == nodeTierExpr (get_node_tier_from_edge_tier G) v) = true
  rw [h1]
  exact beq_self_eq_true _

/-- C4 (counterexample): `reduce_tiers` does not recompute node tiers.  On
the chain `0 → 1 → 2` (edge tiers 1 and 2) the initial assignment satisfies
the invariant, but `reduce_tiers(G, 1)` deletes vertex 1 together with the
edge `0 → 1`, leaving node 0 with no outgoing edges while its stored tier is
still 1 — so the invariant fails after a tier reduction. -/
theorem C4_tier_invariant_counterexample :
    tierInvariant Gc4 = true ∧ tierInvariant (reduce_tiers Gc4 1) = false := by
  decide

/-- C2 (counterexample): on the single edge `0 → 1` with tier 1 and derived
node tiers, `get_demand_nodes` returns `{1}` (the target of the tier-1
edge), while the set of nodes whose tier equals 1 is `{0}` (node 0 is the
source of the tier-1 edge; node 1 has no outgoing edges, hence tier 0). -/
theorem C2_demand_nodes_counterexample :
    get_demand_nodes Gc2 = {1} ∧ demand_nodes_spec Gc2 = {0} ∧
    get_demand_nodes Gc2 ≠ demand_nodes_spec Gc2 := by decide

/-- C2 (amended): `get_demand_nodes(G)` returns exactly the set of target
vertices of edges whose tier equals 1; in particular it is empty (without
raising) when no edge has tier 1. -/
theorem C2_demand_nodes_amended (G : TGraph) (x : Nat) :
    x ∈ get_demand_nodes G ↔ ∃ s tr, (s, x, tr) ∈ G.edges ∧ tr = 1 := by
  rw [get_demand_nodes, List.mem_toFinset, List.mem_map]
  constructor
  · rintro ⟨e, he, rfl⟩
    rw [List.mem_filter] at he
    exact ⟨e.1, e.2.2, he.1, by simpa using he.2⟩
  · rintro ⟨s, tr, hmem, rfl⟩
    exact ⟨(s, x, 1), List.mem_filter.mpr ⟨hmem, by simp⟩, rfl⟩

/-- Membership in the deduplication scan: an element is emitted exactly when
it occurs in the remaining input and has not been seen yet. -/
theorem mem_uniqueKeepFirstAux {α : Type} [DecidableEq α] {a : α} :
    ∀ (l seen : List α), (a ∈ uniqueKeepFirstAux l seen ↔ a ∈ l ∧ a ∉ seen)
  | [], seen => by simp [uniqueKeepFirstAux]
  | x :: xs, seen => by
    simp only [uniqueKeepFirstAux]
    split_ifs with hx
    · rw [mem_uniqueKeepFirstAux xs seen]
      by_cases hax : a = x
      · subst hax; simp [hx]
      · simp [List.mem_cons, hax]
    · rw [List.mem_cons, mem_uniqueKeepFirstAux xs (x :: seen)]
      by_cases hax : a = x
      · subst hax; simp [hx]
      · simp [List.mem_cons, hax]

/-- `uniqueKeepFirst` preserves membership. -/
theorem mem_uniqueKeepFirst {α : Type} [DecidableEq α] {a : α} {l : List α} :
    a ∈ uniqueKeepFirst l ↔ a ∈ l := by
  rw [uniqueKeepFirst, mem_uniqueKeepFirstAux]
  simp

/-- The deduplication scan emits no duplicates. -/
theorem nodup_uniqueKeepFirstAux {α : Type} [DecidableEq α] :
    ∀ (l seen : List α), (uniqueKeepFirstAux l seen).Nodup
  | [], _ => List.nodup_nil
  | x :: xs, seen => by
    simp only [uniqueKeepFirstAux]
    split_ifs with hx
    · exact nodup_uniqueKeepFirstAux xs seen
    · refine List.nodup_cons.mpr ⟨?_, nodup_uniqueKeepFirstAux xs (x :: seen)⟩
      intro hmem
      exact ((mem_uniqueKeepFirstAux xs (x :: seen)).mp hmem).2
        (List.mem_cons_self x seen)

/-- `uniqueKeepFirst` produces a duplicate-free list. -/
theorem nodup_uniqueKeepFirst {α : Type} [DecidableEq α] (l : List α) :
    (uniqueKeepFirst l).Nodup :=
  nodup_uniqueKeepFirstAux l []

/-- The ordered pairs of the constructed edge list are the deduplicated input
pairs. -/
theorem igraph_simple_edges_map (rows : List (Nat × Nat × Nat)) :
    (igraph_simple rows).edges.map pairOf = uniqueKeepFirst (rows.map pairOf) := by
  show ((uniqueKeepFirst (rows.map pairOf)).map
      (fun p => (p.1, p.2, minTier rows p))).map pairOf
    = uniqueKeepFirst (rows.map pairOf)
  rw [List.map_map]
  exact List.map_id'' (fun p => rfl) _

/-- C8 (amended): after `igraph_simple` the graph has at most one edge per
ordered (source, target) pair — the pairs of the edge list are duplicate-free
— and an edge `(s, t, tr)` exists exactly when some input record has the pair
`(s, t)` and `tr` is the minimum input tier for that pair.  (Self-loops are
retained, see the counterexample.) -/
theorem C8_simple_min_tier_amended (rows : List (Nat × Nat × Nat)) :
    ((igraph_simple rows).edges.map pairOf).Nodup ∧
    ∀ s t tr, ((s, t, tr) ∈ (igraph_simple rows).edges ↔
      ((∃ tr0, (s, t, tr0) ∈ rows) ∧ tr = minTier rows (s, t))) := by
  constructor
  · rw [igraph_simple_edges_map]
    exact nodup_uniqueKeepFirst _
  · intro s t tr
    show (s, t, tr) ∈ (uniqueKeepFirst (rows.map pairOf)).map
        (fun p => (p.1, p.2, minTier rows p)) ↔ _
    rw [List.mem_map]
    constructor
    · rintro ⟨p, hp, heq⟩
      obtain ⟨h1, h2, h3⟩ : p.1 = s ∧ p.2 = t ∧ minTier rows p = tr := by
        simpa [Prod.ext_iff] using heq
      have hp' : p ∈ rows.map pairOf := mem_uniqueKeepFirst.mp hp
      rcases List.mem_map.mp hp' with ⟨r, hr, hrp⟩
      refine ⟨⟨r.2.2, ?_⟩, by rw [← h3, ← h1, ← h2]⟩
      have : r = (s, t, r.2.2) := by
        rw [show (s, t, r.2.2) = (r.1, r.2.1, r.2.2) by
          rw [show r.1 = s by rw [← h1, ← hrp]; rfl,
            show r.2.1 = t by rw [← h2, ← hrp]; rfl]]
      rw [← this]
      exact hr
    · rintro ⟨⟨tr0, hmem⟩, rfl⟩
      refine ⟨(s, t), mem_uniqueKeepFirst.mpr ?_, rfl⟩
      exact List.mem_map.mpr ⟨(s, t, tr0), hmem, rfl⟩

/-- C8 (counterexample): the input record `(0, 0, 1)` is a self-loop and it
survives construction, because `simplify` is called with `loops=False`
(do not remove loops); the claim says the graph contains no self-loops. -/
theorem C8_self_loop_counterexample :
    (igraph_simple [(0, 0, 1)]).edges = [(0, 0, 1)] ∧
    ∃ e ∈ (igraph_simple [(0, 0, 1)]).edges, e.1 = e.2.1 := by decide

/-- C9 (counterexample): on the empty edge list `igraph_simple` raises
nothing and produces the empty graph — contradicting the claim that
construction fails with a validation error and no graph is produced.  Every
step of the source (unique of an empty concatenation, adding zero vertices
and edges, assigning an empty attribute vector, `simplify`) is a no-op on
empty input. -/
theorem C9_empty_input_counterexample :
    igraph_simple [] = { verts := [], vtier := [], edges := [] } := rfl

/-- C9 (amended): graph construction on an empty edge list succeeds and
returns the empty graph: no vertices, no tier attributes, no edges. -/
theorem C9_empty_input_amended :
    (igraph_simple []).verts = [] ∧ (igraph_simple []).vtier = [] ∧
    (igraph_simple []).edges = [] := ⟨rfl, rfl, rfl⟩

/-- The failure granularities of the engine. -/
inductive FScale where
  | firm
  | country
  | industry
  | countryIndustry
  deriving DecidableEq

/-- The per-graph state captured by `random_thinning_factory(G)` before it
returns the `attack` closure: one uniform draw per vertex (`firm_rands`),
the category of each vertex at each non-firm granularity, and the fixed
random permutation of the distinct category values (`perm`, built once from
`uniques` when metadata is present).  All of this is generated once and
reused across the whole rho sweep. -/
structure ThinSetup where
  verts : Finset Nat
  rands : Nat → ℚ
  cats : FScale → Nat → Nat
  perm : FScale → List Nat

/-- Python 3 `round` on an exact rational: round half to even. -/
def pyRound (q : ℚ) : ℤ :=
  if q - (⌊q⌋ : ℚ) < 1/2 then ⌊q⌋
  else if (1 : ℚ)/2 < q - (⌊q⌋ : ℚ) then ⌊q⌋ + 1
  else if ⌊q⌋ % 2 = 0 then ⌊q⌋ else ⌊q⌋ + 1

/-- The node set kept by the `attack(rho, failure_scale)` closure returned by
`random_thinning_factory`: at firm granularity the vertices whose draw is at
most `rho`; at the other granularities the vertices whose category lies in
the first `round(rho * number_of_categories)` entries of the fixed
permutation (a category is kept or dropped as a whole).  The thinned graph is
the subgraph induced on this set. -/
def attack (st : ThinSetup) (rho : ℚ) (failure_scale : FScale) : Finset Nat :=
  if failure_scale = FScale.firm then
    st.verts.filter (fun v => st.rands v ≤ rho)
  else
    st.verts.filter (fun v =>
      st.cats failure_scale v ∈ (st.perm failure_scale).take
        (pyRound (rho * ((st.perm failure_scale).length : ℚ))).toNat)

/-- Round-half-to-even is monotone. -/
theorem pyRound_mono {a b : ℚ} (h : a ≤ b) : pyRound a ≤ pyRound b := by
  have hf : ⌊a⌋ ≤ ⌊b⌋ := Int.floor_le_floor h
  have ha1 : pyRound a ≤ ⌊a⌋ + 1 := by
    unfold pyRound; split_ifs <;> omega
  have hb0 : ⌊b⌋ ≤ pyRound b := by
    unfold pyRound; split_ifs <;> omega
  rcases lt_or_eq_of_le hf with hlt | heq
  · omega
  · have hr : a - (⌊b⌋ : ℚ) ≤ b - (⌊b⌋ : ℚ) := by linarith
    unfold pyRound
    rw [heq]
    split_ifs <;> first | omega | linarith

/-- A shorter prefix of a list is contained in a longer one. -/
theorem take_subset_take {α : Type} (l : List α) {m n : Nat} (h : m ≤ n) :
    l.take m ⊆ l.take n := by
  intro x hx
  have hmm : (l.take n).take m = l.take m := by
    rw [List.take_take, Nat.min_eq_left h]
  rw [← hmm] at hx
  exact List.take_subset _ _ hx

/-- The kept category prefix grows with the keep-fraction. -/
theorem take_pyRound_subset (l : List Nat) {a b : ℚ} (h : a ≤ b) :
    l.take (pyRound (a * (l.length : ℚ))).toNat
      ⊆ l.take (pyRound (b * (l.length : ℚ))).toNat := by
  apply take_subset_take
  apply Int.toNat_le_toNat
  apply pyRound_mono
  exact mul_le_mul_of_nonneg_right h (by positivity)

/-- C5: for one attack closure (fixed draws and permutation) and any
granularity, the kept node set is monotone in the keep-fraction: with
`0 ≤ rho1 < rho2 ≤ 1`, every node kept at `rho1` is also kept at `rho2`.
At firm granularity a draw below `rho1` is below `rho2`; at category
granularities the kept prefix of the fixed permutation only grows, since
round-half-to-even is monotone. -/
theorem C5_keep_set_monotone (st : ThinSetup) (s : FScale) (rho1 rho2 : ℚ)
    (h0 : 0 ≤ rho1) (h12 : rho1 < rho2) (h1 : rho2 ≤ 1) :
    attack st rho1 s ⊆ attack st rho2 s := by
  intro v hv
  by_cases hs : s = FScale.firm
  · rw [attack, if_pos hs, Finset.mem_filter] at hv ⊢
    exact ⟨hv.1, le_trans hv.2 (le_of_lt h12)⟩
  · rw [attack, if_neg hs, Finset.mem_filter] at hv ⊢
    exact ⟨hv.1, take_pyRound_subset _ (le_of_lt h12) hv.2⟩

/-- A concrete two-vertex setup: vertex 0 drew 1/4, vertex 1 drew 3/4; each
vertex is its own category and the permutation lists vertex 0 first. -/
def stW : ThinSetup :=
  { verts := {0, 1}
    rands := fun v => if v = 0 then 1/4 else 3/4
    cats := fun _ v => v
    perm := fun _ => [0, 1] }

/-- Witness for C5 at a concrete input: with keep-fractions 1/2 < 1 at firm
granularity the kept set grows, and it is non-vacuous — vertex 0 (draw 1/4)
is kept at keep-fraction 1/2. -/
theorem C5_keep_set_monotone_witness :
    attack stW (1/2) FScale.firm ⊆ attack stW 1 FScale.firm ∧
    0 ∈ attack stW (1/2) FScale.firm :=
  ⟨C5_keep_set_monotone stW FScale.firm (1/2) 1 (by norm_num) (by norm_num)
      (by norm_num),
    by
      rw [attack, if_pos rfl, Finset.mem_filter]
      refine ⟨by decide, ?_⟩
      show (if (0 : Nat) = 0 then (1 : ℚ)/4 else 3/4) ≤ 1/2
      norm_num⟩

/-- Delete the elements sitting at the index positions listed in `idxs`
(`i` is the index of the head).  This is `G_thin.delete_vertices(G_thin.vs(
index_list))`: igraph resolves the integer indices against the current
vertex ordering and removes those vertices. -/
def removeIdxsAux : List Nat → List Nat → Nat → List Nat
  | [], _, _ => []
  | x :: xs, idxs, i =>
    if i ∈ idxs then removeIdxsAux xs idxs (i + 1)
    else x :: removeIdxsAux xs idxs (i + 1)

/-- Delete the elements of `l` at the positions listed in `idxs`. -/
def removeIdxs (l : List Nat) (idxs : List Nat) : List Nat :=
  removeIdxsAux l idxs 0

/-- Deleting an empty batch of positions changes nothing. -/
theorem removeIdxsAux_nil : ∀ (l : List Nat) (i : Nat), removeIdxsAux l [] i = l
  | [], _ => rfl
  | x :: xs, i => by
    simp only [removeIdxsAux, List.not_mem_nil, if_false]
    rw [removeIdxsAux_nil xs (i + 1)]

/-- Since vertex deletion removes a vertex together with its incident edges,
the thinned graph after any sequence of deletions is the subgraph of `G`
induced on the surviving vertex names. -/
def inducedOnList (G : SGraph) (l : List Nat) : SGraph :=
  induced_subgraph G l.toFinset

/-- The while loop of `get_node_breakdown_threshold`, fuel-indexed so that
non-termination of the source loop is expressible: `k` counts the completed
rounds, `cur` is the surviving vertex list of `G_thin` in index order, and
`rc` is the current `reachable_node_count`.  Each round draws a batch of
`int(thinning_ratio * G_thin.vcount())` random vertex indices — `int()`
truncates, and `rand k j` stands for the j-th draw of round k, reduced
modulo the vertex count as `np.random.randint(0, vcount)` only yields values
below `vcount` — deletes them, breaks if the focal node itself was deleted
(returning the nodes deleted so far) and otherwise recomputes the count of
original terminal nodes still upstream-reachable.  Returns `none` when the
fuel is exhausted before the loop exits. -/
def breakdownLoop (G : SGraph) (node : Nat) (t : Finset Nat) (thr fr : ℚ)
    (rand : Nat → Nat → Nat) : Nat → Nat → List Nat → Nat → Option Nat
  | 0, _, _, _ => none
  | fuel + 1, k, cur, rc =>
    if thr * (t.card : ℚ) ≤ (rc : ℚ) then
      let bs : Nat := (⌊fr * (cur.length : ℚ)⌋).toNat
      let cur' := removeIdxs cur ((List.range bs).map (fun j => rand k j % cur.length))
      if node ∈ cur' then
        breakdownLoop G node t thr fr rand fuel (k + 1) cur'
          ((get_reachable_nodes node (inducedOnList G cur') ∩ t).card)
      else some (G.verts.card - cur'.length)
    else some (G.verts.card - cur.length)

/-- `get_node_breakdown_threshold(node, G, breakdown_threshold,
thinning_ratio)`: precompute the focal node's terminal set, copy the graph,
and run the deletion loop starting from the full vertex list with
`reachable_node_count = len(terminal_nodes)`; the result is the number of
deleted nodes at loop exit, or `none` if the loop outlives the given fuel. -/
def get_node_breakdown_threshold (G : SGraph) (node : Nat) (thr fr : ℚ)
    (rand : Nat → Nat → Nat) (fuel : Nat) : Option Nat :=
  let terminal_nodes := get_terminal_nodes node G
  breakdownLoop G node terminal_nodes thr fr rand fuel 0
    (G.verts.sort (· ≤ ·)) terminal_nodes.card

/-- If the loop condition holds, the batch size is zero and the recomputed
reachable count equals the current one, then the loop body is the identity on
its state and the loop never exits, whatever fuel it is given. -/
theorem breakdownLoop_fixed (G : SGraph) (node : Nat) (t : Finset Nat)
    (thr fr : ℚ) (rand : Nat → Nat → Nat) (cur : List Nat) (rc : Nat)
    (hcond : thr * (t.card : ℚ) ≤ (rc : ℚ))
    (hbs : (⌊fr * (cur.length : ℚ)⌋).toNat = 0)
    (hmem : node ∈ cur)
    (hrc : (get_reachable_nodes node (inducedOnList G cur) ∩ t).card = rc) :
    ∀ fuel k, breakdownLoop G node t thr fr rand fuel k cur rc = none := by
  intro fuel
  induction fuel with
  | zero => intro k; rfl
  | succ n ih =>
    intro k
    have hrem : removeIdxs cur ((List.range
        ((⌊fr * (cur.length : ℚ)⌋).toNat)).map (fun j => rand k j % cur.length))
        = cur := by
      rw [hbs, List.range_zero, List.map_nil, removeIdxs, removeIdxsAux_nil]
    simp only [breakdownLoop]
    rw [if_pos hcond, hrem, if_pos hmem, hrc]
    exact ih (k + 1)

/-- C3: the claim asserts termination (with batch size
`ceil(thinning_ratio * current node count)`) for every graph with at least
one node and every positive thinning ratio.  The source computes the batch
size as `int(thinning_ratio * G_thin.vcount())`, which truncates: on a
single-vertex graph with the module default `thinning_ratio = 0.005` the
batch size is 0, every round deletes nothing, the reachable count never
changes, and the while loop never exits — for every finite fuel and every
random stream the run yields no result. -/
theorem C3_breakdown_nontermination (fuel : Nat) (rand : Nat → Nat → Nat) :
    get_node_breakdown_threshold G1 0 (4/5) (1/200) rand fuel = none := by
  have hterm : get_terminal_nodes 0 G1 = {0} := by decide
  show breakdownLoop G1 0 (get_terminal_nodes 0 G1) (4/5) (1/200) rand fuel 0
      (G1.verts.sort (· ≤ ·)) (get_terminal_nodes 0 G1).card = none
  rw [hterm]
  rw [show Finset.sort (· ≤ ·) G1.verts = [0] from Finset.sort_singleton _ 0]
  apply breakdownLoop_fixed
  · norm_num
  · norm_num
  · exact List.mem_singleton.mpr rfl
  · decide

/-- The vertex-attribute table of the canonical graph, mapping a vertex name
to its `Deleted count` value; vertices without the attribute are absent. -/
def attrUpdate (attrs : List (Nat × Nat)) (k v : Nat) : List (Nat × Nat) :=
  (k, v) :: attrs.filter (fun p => p.1 ≠ k)

/-- `get_node_breakdown_threshold` with the canonical graph's mutable state
made explicit: besides the deletion count, the source executes
`node['Deleted count'] = len(G.vs) - len(G_thin.vs)` on the vertex `node` of
the canonical graph `G` before returning, so the call maps the pre-state
`(G, attrs)` to the post-state `(G, attrs updated at node)` — `G`'s vertices
and edges are untouched (deletion happens on the copy `G_thin`), but its
attribute table is not. -/
def get_node_breakdown_threshold_full (G : SGraph) (attrs : List (Nat × Nat))
    (node : Nat) (thr fr : ℚ) (rand : Nat → Nat → Nat) (fuel : Nat) :
    Option (Nat × SGraph × List (Nat × Nat)) :=
  match get_node_breakdown_threshold G node thr fr rand fuel with
  | none => none
  | some c => some (c, G, attrUpdate attrs node c)

/-- Filtering out the entries of another key does not change a lookup. -/
theorem lookup_filter_ne {attrs : List (Nat × Nat)} {k node : Nat}
    (h : k ≠ node) :
    List.lookup k (attrs.filter (fun p => p.1 ≠ node)) = List.lookup k attrs := by
  induction attrs with
  | nil => rfl
  | cons a as ih =>
    obtain ⟨a1, a2⟩ := a
    rw [List.filter_cons]
    by_cases ha : a1 = node
    · rw [if_neg (by simp [ha])]
      have hk : (k == a1) = false :=
        beq_eq_false_iff_ne.mpr (fun hkk => h (hkk.trans ha))
      simp only [List.lookup, hk]
      exact ih
    · rw [if_pos (by simp [ha])]
      by_cases hk : k = a1
      · subst hk
        simp [List.lookup]
      · have hkb : (k == a1) = false := beq_eq_false_iff_ne.mpr hk
        simp only [List.lookup, hkb]
        exact ih

/-- A terminating one-round run on the single-vertex graph: with
`thinning_ratio = 1` the first batch is the single index 0, the focal vertex
is deleted, the loop breaks, and one deletion is reported. -/
theorem breakdown_run_G1 :
    get_node_breakdown_threshold G1 0 (4/5) 1 (fun _ _ => 0) 1 = some 1 := by
  have hterm : get_terminal_nodes 0 G1 = {0} := by decide
  show breakdownLoop G1 0 (get_terminal_nodes 0 G1) (4/5) 1 (fun _ _ => 0) 1 0
      (G1.verts.sort (· ≤ ·)) (get_terminal_nodes 0 G1).card = some 1
  rw [hterm]
  rw [show Finset.sort (· ≤ ·) G1.verts = [0] from Finset.sort_singleton _ 0]
  simp only [breakdownLoop]
  norm_num [removeIdxs, removeIdxsAux, List.range_succ, List.range_zero, G1]

/-- C7 (counterexample): a call of `get_node_breakdown_threshold` on the
single-vertex graph with an initially empty attribute table returns with the
canonical graph's attribute table changed — the `Deleted count` attribute of
the queried node has been written — so the canonical graph does not carry
the same attributes as before the call. -/
theorem C7_frame_counterexample :
    get_node_breakdown_threshold_full G1 [] 0 (4/5) 1 (fun _ _ => 0) 1
      = some (1, G1, [(0, 1)]) ∧
    ([(0, 1)] : List (Nat × Nat)) ≠ [] := by
  constructor
  · rw [get_node_breakdown_threshold_full, breakdown_run_G1]
    rfl
  · simp

/-- C7 (amended): whenever `get_node_breakdown_threshold` returns, the
canonical graph's vertices and edges are unchanged (all deletion happened on
the private copy), the attribute table changed exactly by writing the
deletion count at the queried node (lookups at every other key are
unchanged), and the `attack` closure of `random_thinning_factory` never
touches the canonical graph at all — it merely selects the subset of
vertices to induce the thinned copy on. -/
theorem C7_frame_amended (G : SGraph) (attrs : List (Nat × Nat)) (node : Nat)
    (thr fr : ℚ) (rand : Nat → Nat → Nat) (fuel c : Nat) (G' : SGraph)
    (attrs' : List (Nat × Nat))
    (h : get_node_breakdown_threshold_full G attrs node thr fr rand fuel
      = some (c, G', attrs')) :
    G'.verts = G.verts ∧ G'.edges = G.edges ∧
    attrs' = attrUpdate attrs node c ∧
    (∀ k, k ≠ node → List.lookup k attrs' = List.lookup k attrs) ∧
    (∀ st rho s, attack st rho s ⊆ st.verts) := by
  rw [get_node_breakdown_threshold_full] at h
  rcases hrun : get_node_breakdown_threshold G node thr fr rand fuel with _ | c0
  · rw [hrun] at h
    cases h
  · rw [hrun] at h
    obtain ⟨h1, h2, h3⟩ : c0 = c ∧ G = G' ∧ attrUpdate attrs node c0 = attrs' := by
      simpa [Prod.ext_iff] using h
    subst h1
    subst h2
    subst h3
    refine ⟨rfl, rfl, rfl, ?_, ?_⟩
    · intro k hk
      show List.lookup k ((node, c0) :: attrs.filter (fun p => p.1 ≠ node))
        = List.lookup k attrs
      have hkb : (k == node) = false := beq_eq_false_iff_ne.mpr hk
      simp only [List.lookup, hkb]
      exact lookup_filter_ne hk
    · intro st rho s
      rw [attack]
      split_ifs <;> exact Finset.filter_subset _ _

/-- Witness for C7 at a concrete terminating run: the one-round run on the
single-vertex graph returns count 1 with the graph unchanged and the
attribute table now holding the deleted count at node 0. -/
theorem C7_frame_amended_witness :
    G1.verts = G1.verts ∧ G1.edges = G1.edges ∧
    [(0, 1)] = attrUpdate [] 0 1 ∧
    (∀ k, k ≠ 0 → List.lookup k [(0, 1)]
      = List.lookup k ([] : List (Nat × Nat))) ∧
    (∀ st rho s, attack st rho s ⊆ st.verts) :=
  C7_frame_amended G1 [] 0 (4/5) 1 (fun _ _ => 0) 1 1 G1 [(0, 1)]
    (by rw [get_node_breakdown_threshold_full, breakdown_run_G1]; rfl)
